import Mathlib

/-!
Verification of the opencode-ralph orchestration core.

The Go sources are embedded shallowly:

* Go strings are modelled as `List Char` (the protocol tags and literals are
  ASCII, and the regular expressions in the source operate on the text
  left-to-right).
* The protocol extractor (`extractNotes`, `isComplete`) renders the two RE2
  regular expressions of the source by explicit scanning functions.
* The rate limiter (`countRecentIterations`, `pruneOldTimestamps`) and the
  orchestrator loop (`runIterationsWithRunner`) are rendered as pure functions
  over an explicit `GoState`; unix instants are `Int` seconds, the per-process
  wall clock is a parameter `clock : Nat → Int` giving the instant observed in
  each loop iteration, and the injectable runner is a function from the number
  of previous runner calls to the captured output text.
* The lock manager (`acquireLock`, `isProcessRunning`) is rendered as a state
  machine over the lock file content, with process liveness probing supplied
  by an oracle `kill : Int → KillResult`; file creation, deletion and the pid
  write are modelled as succeeding (the claims under study concern the parse
  and liveness decision paths, not I/O failure).
-/

namespace Ralph

/-! ### Character classes and case folding

`isSpaceGo` is the ASCII part of Go's `unicode.IsSpace` (used by
`strings.TrimSpace` in `extractNotes`); `isSpaceRE` is RE2's `\s` class
`[\t\n\f\r ]` (used by the `(?si)` completion pattern in `isComplete`);
`lc` is ASCII case folding, as applied by the regexp `(?i)` flag to the
ASCII-only pattern of `isComplete`. -/

def isSpaceGo (c : Char) : Bool :=
  c = ' ' || c = '\t' || c = '\n' || c = '\x0B' || c = '\x0C' || c = '\r'

def isSpaceRE (c : Char) : Bool :=
  c = '\t' || c = '\n' || c = '\x0C' || c = '\r' || c = ' '

def lc (c : Char) : Char :=
  if 65 ≤ c.toNat ∧ c.toNat ≤ 90 then Char.ofNat (c.toNat + 32) else c

def ofStr (s : String) : List Char := s.data

/-- `strings.TrimSpace` from the source's `extractNotes`. -/
def trimGo (l : List Char) : List Char :=
  ((l.dropWhile isSpaceGo).reverse.dropWhile isSpaceGo).reverse

/-- Trimming with RE2's whitespace class; used only on the spec side of the
completion predicate, matching the whitespace the `\s*` of the pattern can
absorb. -/
def trimRE (l : List Char) : List Char :=
  ((l.dropWhile isSpaceRE).reverse.dropWhile isSpaceRE).reverse

/-- Case-insensitive equality of texts, via ASCII folding. -/
def ciEq (a b : List Char) : Prop := a.map lc = b.map lc

/-! ### Protocol tag literals -/

def notesOpen : List Char := ofStr "<ralph_notes>"
def notesClose : List Char := ofStr "</ralph_notes>"
def statusOpen : List Char := ofStr "<ralph_status>"
def statusClose : List Char := ofStr "</ralph_status>"
def completeLit : List Char := ofStr "COMPLETE"

/-! ### extractNotes

The source compiles `(?s)<ralph_notes>(.*?)</ralph_notes>` and takes the first
submatch, trimmed.  RE2's leftmost, non-greedy match of this pattern is: the
first occurrence of the opening tag, then the inner text up to the first
occurrence of the closing tag after it.  `findSub` is that leftmost-occurrence
search. -/

def findSub (pat : List Char) : List Char → Option Nat
  | [] => if pat.isPrefixOf ([] : List Char) then some 0 else none
  | c :: rest =>
    if pat.isPrefixOf (c :: rest) then some 0
    else (findSub pat rest).map (fun n => n + 1)

def extractNotes (s : List Char) : List Char :=
  match findSub notesOpen s with
  | none => []
  | some i =>
    match findSub notesClose (s.drop (i + notesOpen.length)) with
    | none => []
    | some j => trimGo ((s.drop (i + notesOpen.length)).take j)

/-! ### isComplete

The source compiles `(?si)<ralph_status>\s*COMPLETE\s*</ralph_status>` and
asks whether it matches anywhere.  The `(?i)` flag case-folds the whole
pattern, tag names included.  `stripCI` matches a pattern literal
case-insensitively at the head of the text, returning the remainder;
`matchStatusAt` matches the whole completion pattern at the head (the `\s*`
pieces are the greedy `dropWhile`, which agrees with backtracking semantics
here because neither `C`/`c` nor `<` is whitespace); `isComplete` searches all
start positions, as an unanchored RE2 match does. -/

def stripCI : List Char → List Char → Option (List Char)
  | [], s => some s
  | _ :: _, [] => none
  | p :: ps, c :: cs => if lc c = lc p then stripCI ps cs else none

def matchStatusAt (s : List Char) : Bool :=
  (stripCI statusOpen s).elim false (fun r1 =>
    (stripCI completeLit (r1.dropWhile isSpaceRE)).elim false (fun r2 =>
      (stripCI statusClose (r2.dropWhile isSpaceRE)).isSome))

def isComplete : List Char → Bool
  | [] => matchStatusAt []
  | c :: cs => matchStatusAt (c :: cs) || isComplete cs

/-! ### Spec-side renderings of the extractor contract -/

/-- Whether `pat` occurs in `s` at index `i`. -/
def matchesAt (pat s : List Char) (i : Nat) : Bool := pat.isPrefixOf (s.drop i)

/-- The least index at which `pat` occurs in `s`, by explicit minimisation
over all candidate indices (the spec's "first well-formed span"). -/
def firstOccur (pat s : List Char) : Option Nat :=
  (List.range (s.length + 1)).find? (fun i => matchesAt pat s i)

/-- The extractor contract, written from the spec: the inner content of the
first well-formed notes span, trimmed; absent or unterminated spans yield the
empty text. -/
def extractNotesSpec (s : List Char) : List Char :=
  match firstOccur notesOpen s with
  | none => []
  | some i =>
    match firstOccur notesClose (s.drop (i + notesOpen.length)) with
    | none => []
    | some j => trimGo ((s.drop (i + notesOpen.length)).take j)

/-- The completion contract, written from the spec: the output contains a
status span (tags matched up to letter case) whose inner text, trimmed of
surrounding whitespace and ignoring letter case, is exactly `COMPLETE`. -/
def isCompleteSpec (s : List Char) : Prop :=
  ∃ pre tagO inner tagC post,
    s = pre ++ tagO ++ inner ++ tagC ++ post ∧
    ciEq tagO statusOpen ∧ ciEq tagC statusClose ∧
    ciEq (trimRE inner) completeLit

/-! ### Rate limiter and persisted state

`State` from the source: the lifetime iteration counter, the iteration
completion instants (unix seconds), and the last-run instant. -/

structure GoState where
  totalIterations : Int
  timestamps : List Int
  lastRun : Int
deriving DecidableEq, Repr

/-- `countRecentIterations` from the source.  The Go function reads the clock
itself; here `now` is that reading.  The source folds over the timestamps,
incrementing `dayCount` when `ts > now-24h` and, nested inside, `hourCount`
when `ts > now-1h`; the pair is `(hourCount, dayCount)`. -/
def countRecentIterations (timestamps : List Int) (now : Int) : Nat × Nat :=
  timestamps.foldl
    (fun hd ts =>
      if now - 86400 < ts then
        if now - 3600 < ts then (hd.1 + 1, hd.2 + 1) else (hd.1, hd.2 + 1)
      else hd)
    (0, 0)

/-- The kept-timestamps loop of `pruneOldTimestamps`: the source appends to
`kept` exactly the entries with `ts > cutoff`. -/
def keepRecent (cutoff : Int) : List Int → List Int
  | [] => []
  | ts :: rest =>
    if cutoff < ts then ts :: keepRecent cutoff rest else keepRecent cutoff rest

/-- `pruneOldTimestamps` from the source, with `now` the clock reading used to
form `cutoff = now - 24h`. -/
def pruneOldTimestamps (st : GoState) (now : Int) : GoState :=
  { st with timestamps := keepRecent (now - 86400) st.timestamps }

/-- Spec-side count of timestamps in the trailing hour, window boundary
included (a timestamp exactly 60 minutes old counts). -/
def hourCountIncl (timestamps : List Int) (now : Int) : Nat :=
  timestamps.countP (fun t => decide (now - 3600 ≤ t))

/-- Spec-side count of timestamps in the trailing day, window boundary
included (a timestamp exactly 24 hours old counts). -/
def dayCountIncl (timestamps : List Int) (now : Int) : Nat :=
  timestamps.countP (fun t => decide (now - 86400 ≤ t))

/-! ### The orchestrator loop

`runIterationsWithRunner` from the source, restricted to its state machine:
configuration-file reading, prompt assembly and console printing are outside
the model; the injected runner is abstracted, per the source's
`OpencodeRunner` interface, as a function from the number of runner calls made
so far to the captured output text.  The result records the terminal outcome,
the in-memory state at exit, the last state passed to `saveState` (the state
on disk), the number of runner invocations, and the notes-journal entries
appended. -/

inductive Outcome
  | complete
  | rate_limited
  | max_iterations
  | dry_run
deriving DecidableEq, Repr

structure RunResult where
  outcome : Outcome
  state : GoState
  saved : GoState
  runnerCalls : Nat
  notes : List (Int × List Char)
deriving DecidableEq, Repr

/-- `state.TotalIterations++` at the top of each loop iteration. -/
def bump (st : GoState) : GoState :=
  { st with totalIterations := st.totalIterations + 1 }

/-- The notes step: if `extractNotes(output)` is nonempty, append a journal
entry keyed by the lifetime iteration number. -/
def pushNotes (notes : List (Int × List Char)) (iteration : Int)
    (output : List Char) : List (Int × List Char) :=
  if extractNotes output = [] then notes
  else notes ++ [(iteration, extractNotes output)]

/-- The record step of a completed iteration: append the current instant to
the timestamps, set `LastRun`, prune entries older than 24 hours. -/
def record (st : GoState) (now : Int) : GoState :=
  pruneOldTimestamps { st with timestamps := st.timestamps ++ [now], lastRun := now } now

/-- The iteration loop of `runIterationsWithRunner`.  The first `Nat` is the
remaining iteration budget (`maxIterations - i`), `i` the session iteration
index feeding the clock, then the in-memory state, the on-disk state, the
runner call count, and the journal. -/
def runFrom (mph mpd : Int) (dryRun : Bool) (runner : Nat → List Char)
    (clock : Nat → Int) :
    Nat → Nat → GoState → GoState → Nat → List (Int × List Char) → RunResult
  | 0, _, st, saved, calls, notes => ⟨.max_iterations, st, saved, calls, notes⟩
  | fuel + 1, i, st, saved, calls, notes =>
    if 0 < mph ∧ mph ≤ ((countRecentIterations (bump st).timestamps (clock i)).1 : Int) then
      ⟨.rate_limited, bump st, bump st, calls, notes⟩
    else if 0 < mpd ∧ mpd ≤ ((countRecentIterations (bump st).timestamps (clock i)).2 : Int) then
      ⟨.rate_limited, bump st, bump st, calls, notes⟩
    else if dryRun then
      ⟨.dry_run, bump st, saved, calls, notes⟩
    else if isComplete (runner calls) then
      ⟨.complete, bump st, saved, calls + 1,
        pushNotes notes (bump st).totalIterations (runner calls)⟩
    else
      runFrom mph mpd dryRun runner clock fuel (i + 1)
        (record (bump st) (clock i)) (record (bump st) (clock i)) (calls + 1)
        (pushNotes notes (bump st).totalIterations (runner calls))

/-- Entry point: run up to `maxIterations` iterations from the loaded state
`st` (which is also the state currently on disk). -/
def runIterationsWithRunner (maxIterations : Nat) (mph mpd : Int) (dryRun : Bool)
    (runner : Nat → List Char) (clock : Nat → Int) (st : GoState) : RunResult :=
  runFrom mph mpd dryRun runner clock maxIterations 0 st st 0 []

/-! ### Lock manager

`acquireLock` / `isProcessRunning` from the source.  The lock file is
`Option (Option Int)`: `none` when absent, `some none` when present but its
pid cannot be parsed (`readLockPID` fails, including `pid <= 0`), and
`some (some pid)` when it parses.  The liveness probe `syscall.Kill(pid, 0)`
is the oracle `kill`. -/

inductive KillResult
  | success
  | esrch
  | eperm
  | otherErr
deriving DecidableEq, Repr

structure LockEnv where
  kill : Int → KillResult
  myPid : Int

/-- `isProcessRunning` from the source: nil error means alive; `ESRCH` means
dead; `EPERM` and every other outcome mean alive. -/
def isProcessRunning (kill : Int → KillResult) (pid : Int) : Bool :=
  if pid ≤ 0 then false
  else
    match kill pid with
    | .success => true
    | .esrch => false
    | .eperm => true
    | .otherErr => true

/-- `readLockPID` from the source: parse failure or a parsed `pid <= 0` is an
error (`none`). -/
def readLockPID (content : Option Int) : Option Int :=
  match content with
  | none => none
  | some pid => if pid ≤ 0 then none else some pid

inductive AcquireOutcome
  | acquired
  | unparsableLock
  | heldByLivePid (pid : Int)
  | attemptsExhausted
deriving DecidableEq, Repr

/-- The attempt loop of `acquireLock` (`for attempts := 0; attempts < 2`),
returning the outcome and the resulting lock-file state.  On a fresh create
the caller's pid is written; an unparsable lock or a live owner is a
contention error; a dead owner's stale file is removed and the loop retries. -/
def acquireLoop (env : LockEnv) : Nat → Option (Option Int) → AcquireOutcome × Option (Option Int)
  | 0, fs => (.attemptsExhausted, fs)
  | attempts + 1, fs =>
    match fs with
    | none => (.acquired, some (some env.myPid))
    | some content =>
      match readLockPID content with
      | none => (.unparsableLock, some content)
      | some pid =>
        if isProcessRunning env.kill pid then (.heldByLivePid pid, some content)
        else acquireLoop env attempts none

/-- `acquireLock` from the source: the attempt loop, bounded to two attempts. -/
def acquireLock (env : LockEnv) (fs : Option (Option Int)) :
    AcquireOutcome × Option (Option Int) :=
  acquireLoop env 2 fs

/-! ### Signal handler exit codes

From `installLockSignalHandler`: the handler listens for the two registered
termination signals (`os.Interrupt` = SIGINT, and SIGTERM) and exits with a
signal-specific code. -/

inductive TermSignal
  | sigint
  | sigterm
deriving DecidableEq, Repr

/-- The exit-code switch of the signal handler: SIGINT maps to 130 and
SIGTERM to 143. -/
def signalExitCode (sig : TermSignal) : Nat :=
  match sig with
  | .sigint => 130
  | .sigterm => 143

/-! ## Rate limiter lemmas -/

theorem countRecent_aux (now : Int) (l : List Int) :
    ∀ h d : Nat,
      l.foldl
        (fun hd ts =>
          if now - 86400 < ts then
            if now - 3600 < ts then (hd.1 + 1, hd.2 + 1) else (hd.1, hd.2 + 1)
          else hd)
        (h, d)
      = (h + l.countP (fun t => decide (now - 3600 < t)),
         d + l.countP (fun t => decide (now - 86400 < t))) := by
  induction l with
  | nil => intro h d; simp
  | cons ts rest ih =>
    intro h d
    simp only [List.foldl_cons, List.countP_cons]
    by_cases h2 : now - 86400 < ts
    · by_cases h1 : now - 3600 < ts
      · rw [if_pos h2, if_pos h1, ih]
        simp [h1, h2]
        omega
      · rw [if_pos h2, if_neg h1, ih]
        simp [h1, h2]
        omega
    · have h1 : ¬ now - 3600 < ts := by omega
      rw [if_neg h2, ih]
      simp [h1, h2]

/-- The hour and day counters of the limiter are the counts of timestamps
strictly inside the trailing hour and the trailing day. -/
theorem countRecent_eq (timestamps : List Int) (now : Int) :
    countRecentIterations timestamps now =
      (timestamps.countP (fun t => decide (now - 3600 < t)),
       timestamps.countP (fun t => decide (now - 86400 < t))) := by
  unfold countRecentIterations
  rw [countRecent_aux]
  simp

theorem mem_keepRecent (cutoff : Int) (l : List Int) (ts : Int) :
    ts ∈ keepRecent cutoff l ↔ ts ∈ l ∧ cutoff < ts := by
  induction l with
  | nil => simp [keepRecent]
  | cons a rest ih =>
    by_cases ha : cutoff < a
    · simp only [keepRecent, if_pos ha, List.mem_cons, ih]
      constructor
      · rintro (rfl | ⟨hm, hc⟩)
        · exact ⟨Or.inl rfl, ha⟩
        · exact ⟨Or.inr hm, hc⟩
      · rintro ⟨rfl | hm, hc⟩
        · exact Or.inl rfl
        · exact Or.inr ⟨hm, hc⟩
    · simp only [keepRecent, if_neg ha, List.mem_cons, ih]
      constructor
      · rintro ⟨hm, hc⟩
        exact ⟨Or.inr hm, hc⟩
      · rintro ⟨rfl | hm, hc⟩
        · exact absurd hc ha
        · exact ⟨hm, hc⟩

/-! ## Claim theorems -/

/-- Claim C2, counterexample: `countRecentIterations` is NOT inclusive of the
window boundary.  A timestamp exactly 60 minutes old is not counted in the
hour window (the inclusive count of the claim is 1, the code's count is 0),
and a timestamp exactly 24 hours old is not counted in the day window. -/
theorem countRecent_boundary_cex :
    (countRecentIterations [96400] 100000).1 = 0 ∧ hourCountIncl [96400] 100000 = 1 ∧
    (countRecentIterations [13600] 100000).2 = 0 ∧ dayCountIncl [13600] 100000 = 1 := by
  decide

/-- Claim C2 (amended): for every timestamp list and instant `now`,
`countRecentIterations` returns the number of timestamps strictly within the
trailing 60 minutes and strictly within the trailing 24 hours — a timestamp
lying exactly on the window boundary is excluded, only strictly newer entries
count; timestamps at now-30m, now-2h and now-25h yield hourCount = 1 and
dayCount = 2. -/
theorem countRecent_strict :
    (∀ (timestamps : List Int) (now : Int),
        countRecentIterations timestamps now =
          (timestamps.countP (fun t => decide (now - 3600 < t)),
           timestamps.countP (fun t => decide (now - 86400 < t)))) ∧
    countRecentIterations [98200, 92800, 10000] 100000 = (1, 2) :=
  ⟨countRecent_eq, by decide⟩

/-- Claim C8: for every list of timestamps and every instant, the hour count
is at most the day count. -/
theorem hourCount_le_dayCount (timestamps : List Int) (now : Int) :
    (countRecentIterations timestamps now).1 ≤ (countRecentIterations timestamps now).2 := by
  rw [countRecent_eq]
  exact List.countP_mono_left (fun t _ ht => by
    simp only [decide_eq_true_eq] at ht ⊢
    omega)

/-- Claim C7, counterexample: a timestamp exactly 24 hours old — which is not
strictly older than 24 hours — is nevertheless discarded by
`pruneOldTimestamps`. -/
theorem prune_boundary_cex :
    (pruneOldTimestamps ⟨0, [13600], 0⟩ 100000).timestamps = [] ∧
    ¬ (100000 - (13600 : Int) > 86400) := by decide

/-- Claim C7 (amended): `pruneOldTimestamps` keeps exactly the timestamps
strictly newer than `now - 24h` (entries exactly 24 hours old or older are
discarded) and leaves the other state fields unchanged; from timestamps at
now-23h and now-25h exactly the 23h entry survives. -/
theorem pruneOldTimestamps_strict :
    (∀ (st : GoState) (now : Int),
        (∀ ts, ts ∈ (pruneOldTimestamps st now).timestamps ↔
            ts ∈ st.timestamps ∧ now - 86400 < ts) ∧
        (pruneOldTimestamps st now).totalIterations = st.totalIterations ∧
        (pruneOldTimestamps st now).lastRun = st.lastRun) ∧
    (pruneOldTimestamps ⟨0, [17200, 10000], 0⟩ 100000).timestamps = [17200] :=
  ⟨fun st now => ⟨fun ts => mem_keepRecent _ _ _, rfl, rfl⟩, by decide⟩

/-- Claim C1, counterexample: on a rate-limited exit the persisted state is
NOT unchanged from the state at the start of the iteration — with
`maxPerHour = 1` and one recent timestamp, the run exits `rate_limited`
without invoking the runner, but the persisted state differs from the
start-of-iteration state: `totalIterations` was incremented before the
admission check. -/
theorem rateLimited_counter_cex :
    (runFrom 1 0 false (fun _ => []) (fun _ => 100000) 3 0 ⟨5, [99000], 0⟩
        ⟨5, [99000], 0⟩ 0 []).outcome = .rate_limited ∧
    (runFrom 1 0 false (fun _ => []) (fun _ => 100000) 3 0 ⟨5, [99000], 0⟩
        ⟨5, [99000], 0⟩ 0 []).runnerCalls = 0 ∧
    (runFrom 1 0 false (fun _ => []) (fun _ => 100000) 3 0 ⟨5, [99000], 0⟩
        ⟨5, [99000], 0⟩ 0 []).saved ≠ (⟨5, [99000], 0⟩ : GoState) := by decide

/-- Claim C1 (amended): on every iteration where the admission check fails
(`maxPerHour > 0` and `hourCount >= maxPerHour`, or `maxPerDay > 0` and
`dayCount >= maxPerDay`), the run terminates with outcome `rate_limited`, the
runner is not invoked, and the state persisted on exit has the same
timestamps (no new timestamp appended) and the same `lastRun` as the state at
the start of the iteration, with only `totalIterations` one greater — the
lifetime-counter increment precedes the admission check and is persisted. -/
theorem rateLimited_exit (mph mpd : Int) (dr : Bool) (runner : Nat → List Char)
    (clock : Nat → Int) (fuel i calls : Nat) (st saved : GoState)
    (notes : List (Int × List Char))
    (h : (0 < mph ∧ mph ≤ ((countRecentIterations st.timestamps (clock i)).1 : Int)) ∨
         (0 < mpd ∧ mpd ≤ ((countRecentIterations st.timestamps (clock i)).2 : Int))) :
    runFrom mph mpd dr runner clock (fuel + 1) i st saved calls notes =
      ⟨.rate_limited,
        ⟨st.totalIterations + 1, st.timestamps, st.lastRun⟩,
        ⟨st.totalIterations + 1, st.timestamps, st.lastRun⟩, calls, notes⟩ := by
  have hb : (bump st).timestamps = st.timestamps := rfl
  have hst : bump st = ⟨st.totalIterations + 1, st.timestamps, st.lastRun⟩ := rfl
  rcases h with ⟨h1, h2⟩ | ⟨h1, h2⟩
  · simp only [runFrom]
    rw [if_pos ⟨h1, by rw [hb]; exact h2⟩, hst]
  · simp only [runFrom]
    by_cases hc : 0 < mph ∧ mph ≤ ((countRecentIterations (bump st).timestamps (clock i)).1 : Int)
    · rw [if_pos hc, hst]
    · rw [if_neg hc, if_pos ⟨h1, by rw [hb]; exact h2⟩, hst]

/-- Witness for the amended C1 at a concrete input: limit 1/hour, one recent
timestamp; the hypothesis holds and the run exits `rate_limited` with the
counter bumped, timestamps and lastRun untouched, runner never called. -/
theorem rateLimited_exit_witness :
    ((0 < (1 : Int) ∧
        (1 : Int) ≤ (((countRecentIterations ((⟨5, [99000], 0⟩ : GoState)).timestamps
          ((fun _ => 100000) 0)).1 : Nat) : Int)) ∨
      (0 < (0 : Int) ∧
        (0 : Int) ≤ (((countRecentIterations ((⟨5, [99000], 0⟩ : GoState)).timestamps
          ((fun _ => 100000) 0)).2 : Nat) : Int))) ∧
    runFrom 1 0 false (fun _ => []) (fun _ => 100000) 3 0 ⟨5, [99000], 0⟩
        ⟨5, [99000], 0⟩ 0 [] =
      ⟨.rate_limited, ⟨6, [99000], 0⟩, ⟨6, [99000], 0⟩, 0, []⟩ :=
  ⟨Or.inl ⟨by decide, by decide⟩,
    rateLimited_exit 1 0 false (fun _ => []) (fun _ => 100000) 2 0 0 ⟨5, [99000], 0⟩
      ⟨5, [99000], 0⟩ [] (Or.inl ⟨by decide, by decide⟩)⟩

/-- Claim C3: whenever the admission check passes and the captured output of
the runner signals completion, the loop stops immediately with outcome
`complete`: exactly one more runner call is made, no new timestamp is
appended (in memory or on disk — the persisted state is untouched for the
terminal iteration), and only the notes step runs. -/
theorem completeExit (mph mpd : Int) (runner : Nat → List Char) (clock : Nat → Int)
    (fuel i calls : Nat) (st saved : GoState) (notes : List (Int × List Char))
    (hH : ¬(0 < mph ∧ mph ≤ ((countRecentIterations st.timestamps (clock i)).1 : Int)))
    (hD : ¬(0 < mpd ∧ mpd ≤ ((countRecentIterations st.timestamps (clock i)).2 : Int)))
    (hC : isComplete (runner calls) = true) :
    runFrom mph mpd false runner clock (fuel + 1) i st saved calls notes =
      ⟨.complete, ⟨st.totalIterations + 1, st.timestamps, st.lastRun⟩, saved, calls + 1,
        pushNotes notes (st.totalIterations + 1) (runner calls)⟩ := by
  have hb : (bump st).timestamps = st.timestamps := rfl
  have hst : bump st = ⟨st.totalIterations + 1, st.timestamps, st.lastRun⟩ := rfl
  simp only [runFrom]
  rw [if_neg (fun hc => hH (by rw [← hb]; exact hc)),
    if_neg (fun hc => hD (by rw [← hb]; exact hc)),
    if_neg (by simp), if_pos hC, hst]

/-- Witness for C3, instantiating the spec's end-to-end scenario: with
`maxIterations = 3` (fuel 3 at session index 0) and a runner double that
returns the COMPLETE status on its first call, the loop makes exactly one
runner call and ends with outcome `complete`, appending no timestamp. -/
theorem completeExit_witness :
    (¬(0 < (0 : Int) ∧
        (0 : Int) ≤ (((countRecentIterations (([] : List Int)) ((fun _ => 0) 0)).1 : Nat) : Int))) ∧
    (¬(0 < (0 : Int) ∧
        (0 : Int) ≤ (((countRecentIterations (([] : List Int)) ((fun _ => 0) 0)).2 : Nat) : Int))) ∧
    isComplete ((fun _ => ofStr "<ralph_status>COMPLETE</ralph_status>") 0) = true ∧
    runFrom 0 0 false (fun _ => ofStr "<ralph_status>COMPLETE</ralph_status>") (fun _ => 0) 3 0
        ⟨0, [], 0⟩ ⟨0, [], 0⟩ 0 [] =
      ⟨.complete, ⟨1, [], 0⟩, ⟨0, [], 0⟩, 1, []⟩ :=
  ⟨by decide, by decide, by decide,
    completeExit 0 0 (fun _ => ofStr "<ralph_status>COMPLETE</ralph_status>") (fun _ => 0) 2 0 0
      ⟨0, [], 0⟩ ⟨0, [], 0⟩ [] (by decide) (by decide) (by decide)⟩

/-- Claim C4: when `acquireLock` finds an existing lock file — an unparsable
owner pid fails with a contention error; a live owner (liveness decided by the
no-op signal probe: nil means alive, ESRCH means dead, EPERM or any other
outcome means alive) fails with a contention error naming the owner pid; a
dead owner's stale lock is deleted and acquisition retried, the whole
procedure being the two-attempt loop `acquireLoop env 2`. -/
theorem acquireLock_contract :
    (∀ env : LockEnv, acquireLock env (some none) = (.unparsableLock, some none)) ∧
    (∀ (env : LockEnv) (pid : Int), pid ≤ 0 →
        acquireLock env (some (some pid)) = (.unparsableLock, some (some pid))) ∧
    (∀ (env : LockEnv) (pid : Int), 0 < pid → isProcessRunning env.kill pid = true →
        acquireLock env (some (some pid)) = (.heldByLivePid pid, some (some pid))) ∧
    (∀ (env : LockEnv) (pid : Int), 0 < pid → env.kill pid = .esrch →
        acquireLock env (some (some pid)) = (.acquired, some (some env.myPid))) ∧
    (∀ (env : LockEnv) (pid : Int), 0 < pid →
        (isProcessRunning env.kill pid = false ↔ env.kill pid = .esrch)) := by
  refine ⟨fun env => rfl, ?_, ?_, ?_, ?_⟩
  · intro env pid hle
    simp only [acquireLock, acquireLoop, readLockPID]
    rw [if_pos hle]
  · intro env pid hpos hrun
    simp only [acquireLock, acquireLoop, readLockPID]
    rw [if_neg (show ¬ pid ≤ 0 by omega)]
    simp [hrun]
  · intro env pid hpos hkill
    have hdead : isProcessRunning env.kill pid = false := by
      simp only [isProcessRunning]
      rw [if_neg (by omega), hkill]
    simp only [acquireLock, acquireLoop, readLockPID]
    rw [if_neg (show ¬ pid ≤ 0 by omega)]
    simp [hdead, acquireLoop]
  · intro env pid hpos
    simp only [isProcessRunning]
    rw [if_neg (by omega)]
    cases h : env.kill pid <;> simp

/-- Witness for C4 at concrete inputs: a stale lock held by dead pid 7 (the
probe returns ESRCH) is cleaned up and acquisition succeeds, writing the
caller's pid 42. -/
theorem acquireLock_contract_witness :
    (0 < (7 : Int) ∧
      (⟨fun p => if p = 7 then KillResult.esrch else KillResult.success, 42⟩ : LockEnv).kill 7 =
        KillResult.esrch) ∧
    acquireLock ⟨fun p => if p = 7 then KillResult.esrch else KillResult.success, 42⟩
        (some (some 7)) = (.acquired, some (some 42)) :=
  ⟨⟨by decide, by decide⟩,
    acquireLock_contract.2.2.2.1
      ⟨fun p => if p = 7 then KillResult.esrch else KillResult.success, 42⟩ 7
      (by decide) (by decide)⟩

/-- Claim C9: the signal handler maps SIGINT to exit code 130 and SIGTERM to
exit code 143, two distinct conventional codes. -/
theorem signalExitCodes_distinct :
    signalExitCode .sigint = 130 ∧ signalExitCode .sigterm = 143 ∧
    signalExitCode .sigint ≠ signalExitCode .sigterm := by decide

/-- Claim C10: the `(?i)` flag of the completion matcher applies to the whole
pattern, tag names included, so an all-uppercase status tag with lowercase
inner text is reported complete; the notes extractor, whose pattern carries no
`(?i)` flag, matches its tags case-sensitively. -/
theorem statusTagsFoldCase_notesTagsDoNot :
    isComplete (ofStr "<RALPH_STATUS>complete</RALPH_STATUS>") = true ∧
    extractNotes (ofStr "<RALPH_NOTES>hi</RALPH_NOTES>") = [] ∧
    extractNotes (ofStr "<ralph_notes>hi</ralph_notes>") = ofStr "hi" := by decide

/-! ## Extractor lemmas (C5) -/

theorem matchesAt_succ (pat : List Char) (c : Char) (cs : List Char) (i : Nat) :
    matchesAt pat (c :: cs) (i + 1) = matchesAt pat cs i := by
  simp [matchesAt, List.drop_succ_cons]

/-- The scanning search `findSub` returns the least index at which the
pattern occurs. -/
theorem findSub_eq_firstOccur (pat : List Char) (s : List Char) :
    findSub pat s = firstOccur pat s := by
  induction s with
  | nil =>
    by_cases h : pat.isPrefixOf ([] : List Char)
    · simp [findSub, firstOccur, matchesAt, h, List.range_succ_eq_map, List.range_zero,
        List.find?_cons_of_pos]
    · simp [findSub, firstOccur, matchesAt, h, List.range_succ_eq_map, List.range_zero,
        List.find?_cons_of_neg]
  | cons c cs ih =>
    by_cases h : pat.isPrefixOf (c :: cs)
    · have h0 : matchesAt pat (c :: cs) 0 = true := by simp [matchesAt, h]
      simp only [findSub, if_pos h, firstOccur, List.length_cons, List.range_succ_eq_map]
      rw [List.find?_cons_of_pos _ h0]
    · have h0 : ¬ matchesAt pat (c :: cs) 0 = true := by simp [matchesAt, h]
      simp only [findSub, if_neg h, firstOccur, List.length_cons, List.range_succ_eq_map]
      rw [List.find?_cons_of_neg _ h0, List.find?_map, ih]
      have hfun : ((fun i => matchesAt pat (c :: cs) i) ∘ Nat.succ) =
          (fun i => matchesAt pat cs i) := by
        funext i
        simp [Function.comp, Nat.succ_eq_add_one, matchesAt_succ]
      rw [hfun, ← List.range_succ_eq_map]
      rfl

theorem extractNotes_eq_spec (s : List Char) : extractNotes s = extractNotesSpec s := by
  simp only [extractNotes, extractNotesSpec, findSub_eq_firstOccur]

/-- Claim C5: for every input, `extractNotes` returns the whitespace-trimmed
inner content of the first well-formed notes span (`extractNotesSpec`, which
chooses the least opening-tag index and the least closing-tag index after it,
slices the inner text and trims it); an absent or unterminated span yields the
empty text — not an error — and matching crosses embedded newlines. -/
theorem extractNotes_contract :
    (∀ s, extractNotes s = extractNotesSpec s) ∧
    extractNotes (ofStr "<ralph_notes>\nhello\n</ralph_notes>") = ofStr "hello" ∧
    extractNotes (ofStr "<ralph_notes>oops") = [] ∧
    extractNotes (ofStr "no notes") = [] ∧
    extractNotes (ofStr "<ralph_notes>a</ralph_notes><ralph_notes>b</ralph_notes>") = ofStr "a" :=
  ⟨extractNotes_eq_spec, by decide, by decide, by decide, by decide⟩

/-! ## Completion matcher lemmas (C6) -/

theorem lc_of_spaceRE {c : Char} (h : isSpaceRE c = true) : lc c = c := by
  simp only [isSpaceRE, Bool.or_eq_true, decide_eq_true_eq] at h
  rcases h with (((rfl | rfl) | rfl) | rfl) | rfl <;> decide

theorem not_spaceRE_of_lc {c d : Char} (h : lc c = d) (hd : isSpaceRE d = false) :
    isSpaceRE c = false := by
  cases hc : isSpaceRE c
  · rfl
  · rw [lc_of_spaceRE hc] at h
    subst h
    rw [hc] at hd
    exact Bool.noConfusion hd

theorem ciEq_cons_head {o : List Char} {d : Char} {ds : List Char}
    (h : o.map lc = d :: ds) : ∃ k t, o = k :: t ∧ lc k = d := by
  cases o with
  | nil => exact absurd h (by simp)
  | cons k t =>
    simp only [List.map_cons, List.cons.injEq] at h
    exact ⟨k, t, rfl, h.1⟩

theorem complete_core_head {core : List Char} (h : ciEq core completeLit) :
    ∃ k t, core = k :: t ∧ isSpaceRE k = false := by
  have h0 : core.map lc = completeLit.map lc := h
  have hm : core.map lc = 'c' :: ofStr "omplete" := by rw [h0]; decide
  obtain ⟨k, t, hk, hlc⟩ := ciEq_cons_head hm
  exact ⟨k, t, hk, not_spaceRE_of_lc hlc (by decide)⟩

theorem complete_core_last {core : List Char} (h : ciEq core completeLit) :
    ∃ e t, core.reverse = e :: t ∧ isSpaceRE e = false := by
  have h0 : core.map lc = completeLit.map lc := h
  have hm : core.reverse.map lc = 'e' :: ofStr "telpmoc" := by
    rw [List.map_reverse, h0]; decide
  obtain ⟨e, t, he, hlc⟩ := ciEq_cons_head hm
  exact ⟨e, t, he, not_spaceRE_of_lc hlc (by decide)⟩

theorem close_tag_head {c : List Char} (h : ciEq c statusClose) :
    ∃ k t, c = k :: t ∧ isSpaceRE k = false := by
  have h0 : c.map lc = statusClose.map lc := h
  have hm : c.map lc = '<' :: ofStr "/ralph_status>" := by rw [h0]; decide
  obtain ⟨k, t, hk, hlc⟩ := ciEq_cons_head hm
  exact ⟨k, t, hk, not_spaceRE_of_lc hlc (by decide)⟩

theorem stripCI_eq_some {pat s r : List Char} (h : stripCI pat s = some r) :
    ∃ o, s = o ++ r ∧ ciEq o pat := by
  induction pat generalizing s with
  | nil =>
    have h0 : s = r := by simpa [stripCI] using h
    exact ⟨[], by simp [h0], rfl⟩
  | cons p ps ih =>
    cases s with
    | nil => exact absurd h (by simp [stripCI])
    | cons c cs =>
      by_cases hlc : lc c = lc p
      · rw [stripCI, if_pos hlc] at h
        obtain ⟨o, ho, hci⟩ := ih h
        refine ⟨c :: o, by rw [List.cons_append, ← ho], ?_⟩
        simp only [ciEq, List.map_cons]
        exact congrArg₂ List.cons hlc hci
      · rw [stripCI, if_neg hlc] at h
        exact Option.noConfusion h

theorem stripCI_append {pat o : List Char} (hci : ciEq o pat) (r : List Char) :
    stripCI pat (o ++ r) = some r := by
  induction pat generalizing o with
  | nil =>
    have ho : o = [] := List.map_eq_nil_iff.mp hci
    subst ho
    rfl
  | cons p ps ih =>
    cases o with
    | nil => exact absurd hci (by simp [ciEq])
    | cons a o2 =>
      simp only [ciEq, List.map_cons, List.cons.injEq] at hci
      rw [List.cons_append, stripCI, if_pos hci.1]
      exact ih hci.2

theorem dropWhile_append_of_all {p : Char → Bool} {w : List Char} (l : List Char)
    (hw : ∀ x ∈ w, p x = true) : (w ++ l).dropWhile p = l.dropWhile p := by
  induction w with
  | nil => rfl
  | cons a w2 ih =>
    rw [List.cons_append, List.dropWhile_cons, if_pos (hw a (List.mem_cons_self a w2))]
    exact ih (fun x hx => hw x (List.mem_cons_of_mem a hx))

theorem dropWhile_cons_of_neg {p : Char → Bool} {c : Char} {l : List Char}
    (h : p c = false) : (c :: l).dropWhile p = c :: l := by
  rw [List.dropWhile_cons, if_neg (by simp [h])]

theorem trimRE_sandwich {w1 core w2 : List Char}
    (h1 : ∀ x ∈ w1, isSpaceRE x = true) (h2 : ∀ x ∈ w2, isSpaceRE x = true)
    (hhd : ∃ k t, core = k :: t ∧ isSpaceRE k = false)
    (hlast : ∃ e t, core.reverse = e :: t ∧ isSpaceRE e = false) :
    trimRE (w1 ++ (core ++ w2)) = core := by
  obtain ⟨k, t, hk, hks⟩ := hhd
  obtain ⟨e, t2, he, hes⟩ := hlast
  unfold trimRE
  rw [dropWhile_append_of_all _ h1, hk, List.cons_append, dropWhile_cons_of_neg hks,
    ← List.cons_append, ← hk, List.reverse_append,
    dropWhile_append_of_all _ (fun x hx => h2 x (List.mem_reverse.mp hx)),
    he, dropWhile_cons_of_neg hes, ← he, List.reverse_reverse]

/-- Every text splits as leading whitespace, its trim, and trailing
whitespace. -/
theorem inner_decomp (inner : List Char) :
    ∃ w1 w2, inner = w1 ++ (trimRE inner ++ w2) ∧
      (∀ x ∈ w1, isSpaceRE x = true) ∧ (∀ x ∈ w2, isSpaceRE x = true) := by
  refine ⟨inner.takeWhile isSpaceRE,
    ((inner.dropWhile isSpaceRE).reverse.takeWhile isSpaceRE).reverse, ?_, ?_, ?_⟩
  · conv_lhs => rw [← List.takeWhile_append_dropWhile (p := isSpaceRE) (l := inner)]
    congr 1
    conv_lhs => rw [← List.reverse_reverse (inner.dropWhile isSpaceRE),
      ← List.takeWhile_append_dropWhile (p := isSpaceRE)
        (l := (inner.dropWhile isSpaceRE).reverse)]
    rw [List.reverse_append]
    rfl
  · intro x hx; exact List.mem_takeWhile_imp hx
  · intro x hx; exact List.mem_takeWhile_imp (List.mem_reverse.mp hx)

theorem matchStatusAt_construct {o w1 core w2 c post : List Char}
    (hO : ciEq o statusOpen) (hw1 : ∀ x ∈ w1, isSpaceRE x = true)
    (hcore : ciEq core completeLit) (hw2 : ∀ x ∈ w2, isSpaceRE x = true)
    (hC : ciEq c statusClose) :
    matchStatusAt (o ++ (w1 ++ (core ++ (w2 ++ (c ++ post))))) = true := by
  obtain ⟨k, t, hk, hks⟩ := complete_core_head hcore
  obtain ⟨a, t2, ha, has⟩ := close_tag_head hC
  unfold matchStatusAt
  rw [stripCI_append hO, Option.elim_some, dropWhile_append_of_all _ hw1,
    hk, List.cons_append, dropWhile_cons_of_neg hks, ← List.cons_append, ← hk,
    stripCI_append hcore, Option.elim_some, dropWhile_append_of_all _ hw2,
    ha, List.cons_append, dropWhile_cons_of_neg has, ← List.cons_append, ← ha,
    stripCI_append hC]
  rfl

theorem matchStatusAt_decomp {s : List Char} (h : matchStatusAt s = true) :
    ∃ o w1 core w2 c post,
      s = o ++ (w1 ++ (core ++ (w2 ++ (c ++ post)))) ∧
      ciEq o statusOpen ∧ (∀ x ∈ w1, isSpaceRE x = true) ∧
      ciEq core completeLit ∧ (∀ x ∈ w2, isSpaceRE x = true) ∧ ciEq c statusClose := by
  unfold matchStatusAt at h
  cases h1 : stripCI statusOpen s with
  | none => rw [h1, Option.elim_none] at h; exact Bool.noConfusion h
  | some r1 =>
    rw [h1, Option.elim_some] at h
    cases h2 : stripCI completeLit (r1.dropWhile isSpaceRE) with
    | none => rw [h2, Option.elim_none] at h; exact Bool.noConfusion h
    | some r2 =>
      rw [h2, Option.elim_some] at h
      obtain ⟨post, h3⟩ := Option.isSome_iff_exists.mp h
      obtain ⟨o, rfl, hO⟩ := stripCI_eq_some h1
      obtain ⟨core, hq, hcore⟩ := stripCI_eq_some h2
      obtain ⟨c, hq2, hC⟩ := stripCI_eq_some h3
      refine ⟨o, r1.takeWhile isSpaceRE, core, r2.takeWhile isSpaceRE, c, post, ?_,
        hO, fun x hx => List.mem_takeWhile_imp hx, hcore,
        fun x hx => List.mem_takeWhile_imp hx, hC⟩
      have hr2 : r2 = r2.takeWhile isSpaceRE ++ (c ++ post) := by
        rw [← hq2, List.takeWhile_append_dropWhile]
      congr 1
      rw [← hr2, ← hq, List.takeWhile_append_dropWhile]

theorem isComplete_append_of_match {t : List Char} (pre : List Char)
    (h : matchStatusAt t = true) : isComplete (pre ++ t) = true := by
  induction pre with
  | nil =>
    cases t with
    | nil => exact absurd h (by decide)
    | cons c cs => simpa [isComplete] using Or.inl h
  | cons a pre2 ih =>
    rw [List.cons_append]
    simp [isComplete, ih]

theorem isComplete_decomp {s : List Char} (h : isComplete s = true) :
    ∃ pre t, s = pre ++ t ∧ matchStatusAt t = true := by
  induction s with
  | nil => exact absurd h (by decide)
  | cons c cs ih =>
    rw [isComplete, Bool.or_eq_true] at h
    rcases h with h | h
    · exact ⟨[], c :: cs, rfl, h⟩
    · obtain ⟨pre, t, heq, hm⟩ := ih h
      exact ⟨c :: pre, t, by rw [List.cons_append, ← heq], hm⟩

/-- The completion matcher agrees with the spec-level predicate. -/
theorem isComplete_iff (s : List Char) : isComplete s = true ↔ isCompleteSpec s := by
  constructor
  · intro h
    obtain ⟨pre, t, rfl, hm⟩ := isComplete_decomp h
    obtain ⟨o, w1, core, w2, c, post, rfl, hO, hw1, hcore, hw2, hC⟩ := matchStatusAt_decomp hm
    refine ⟨pre, o, w1 ++ (core ++ w2), c, post, by simp [List.append_assoc], hO, hC, ?_⟩
    rw [trimRE_sandwich hw1 hw2 (complete_core_head hcore) (complete_core_last hcore)]
    exact hcore
  · rintro ⟨pre, tagO, inner, tagC, post, rfl, hO, hC, htrim⟩
    obtain ⟨w1, w2, hin, hw1, hw2⟩ := inner_decomp inner
    have hm : matchStatusAt (tagO ++ (w1 ++ (trimRE inner ++ (w2 ++ (tagC ++ post))))) = true :=
      matchStatusAt_construct hO hw1 htrim hw2 hC
    have hs : pre ++ tagO ++ inner ++ tagC ++ post =
        pre ++ (tagO ++ (w1 ++ (trimRE inner ++ (w2 ++ (tagC ++ post))))) := by
      conv_lhs => rw [hin]
      simp [List.append_assoc]
    rw [hs]
    exact isComplete_append_of_match pre hm

/-- Claim C6: for every input, `isComplete` is true iff the text contains a
status span — tags matched up to letter case, consistently with the
matcher's case-insensitive flag — whose inner text, after trimming
surrounding whitespace and ignoring letter case, is exactly the literal
`COMPLETE`; in particular `INCOMPLETE` is not complete. -/
theorem isComplete_contract :
    (∀ s, isComplete s = true ↔ isCompleteSpec s) ∧
    isComplete (ofStr "<ralph_status>COMPLETE</ralph_status>") = true ∧
    isComplete (ofStr "<ralph_status>INCOMPLETE</ralph_status>") = false :=
  ⟨isComplete_iff, by decide, by decide⟩

end Ralph
